import Mathlib

/-!
# Verification of the persistent-cookiejar persistence core

Shallow embedding of the repository's persistence mechanism:

* `src/persist.go` (lowercase `atomicFile` revision): `create`, `cancel`,
  `commit` — the temp-file-then-rename atomic writer with mtime-based
  conflict detection.
* `src/unnamed/part_000` (second revision, the one with the retry loop):
  `Save`, `Load`, `mergeEntries`, `loadJSON`, `encodeJSON`, `decodeJSON`.

Go maps (`map[string]map[string]entry`) are embedded as association lists
with first-match lookup; Go map assignment replaces the binding of an
existing key in place and appends an absent key.  The filesystem is a
finite map from paths to file data (content plus modification time).
Fallible syscalls (TempFile, Sync, Stat, Rename, Remove, Open) take
explicit fault-injection inputs so that every error branch of the source
is reachable in the model.  The serialized form of a document is embedded
at the token level: the byte-level JSON lexer is Go's `encoding/json`
(external to this repository), while the structure it produces — an
object of objects of opaque records — is modelled exactly, including
`Decode`'s behaviours that matter here: `io.EOF` on empty input, and
decoding into a non-empty existing map keeping the keys the input does
not mention.
-/

namespace CookieJar

/-- Modelled from the spec: the cookie record type `entry` is defined in a
repository file that is not under `src/`; the spec treats records as
"opaque serializable values round-tripped without interpretation", so the
model gives it a single opaque payload field. -/
structure Entry where
  value : String
deriving DecidableEq

/-- One key/value binding list with Go-map lookup semantics (first match). -/
abbrev InnerMap := List (String × Entry)

/-- The two-level Document: outer key (domain) to inner map (cookie name to record). -/
abbrev OuterMap := List (String × InnerMap)

/-- Lookup in an association list: the value of the first matching key. -/
def mapGet {V : Type} (m : List (String × V)) (k : String) : Option V :=
  match m with
  | [] => none
  | (k1, v) :: rest => if k = k1 then some v else mapGet rest k

/-- Go map assignment `m[k] = v`: replace the binding of an existing key,
append an absent one. -/
def mapSet {V : Type} (m : List (String × V)) (k : String) (v : V) : List (String × V) :=
  match m with
  | [] => [(k, v)]
  | (k1, v1) :: rest => if k = k1 then (k, v) :: rest else (k1, v1) :: mapSet rest k v

/-- Removal of a key (paths in a filesystem are unique, so removing every
occurrence coincides with removing the one binding). -/
def mapErase {V : Type} (m : List (String × V)) (k : String) : List (String × V) :=
  match m with
  | [] => []
  | (k1, v1) :: rest => if k = k1 then mapErase rest k else (k1, v1) :: mapErase rest k

/-- The keys of an association list. -/
def mapKeys {V : Type} (m : List (String × V)) : List String :=
  m.map Prod.fst

/-- Two-level lookup `m[k0][k1]`. -/
def getEntry (m : OuterMap) (k0 k1 : String) : Option Entry :=
  (mapGet m k0).bind (fun inner => mapGet inner k1)

@[simp] theorem mapGet_nil {V : Type} (k : String) : mapGet ([] : List (String × V)) k = none := rfl

@[simp] theorem mapKeys_nil {V : Type} : mapKeys ([] : List (String × V)) = [] := rfl

@[simp] theorem mapKeys_cons {V : Type} (k1 : String) (v1 : V) (rest : List (String × V)) :
    mapKeys ((k1, v1) :: rest) = k1 :: mapKeys rest := rfl

@[simp] theorem mapKeys_append {V : Type} (a b : List (String × V)) :
    mapKeys (a ++ b) = mapKeys a ++ mapKeys b := List.map_append _ _ _

theorem mapGet_cons {V : Type} (k1 : String) (v : V) (rest : List (String × V)) (k : String) :
    mapGet ((k1, v) :: rest) k = if k = k1 then some v else mapGet rest k := rfl

@[simp] theorem mapGet_mapSet_self {V : Type} (m : List (String × V)) (k : String) (v : V) :
    mapGet (mapSet m k v) k = some v := by
  induction m with
  | nil => simp [mapGet, mapSet]
  | cons p rest ih =>
    obtain ⟨k1, v1⟩ := p
    by_cases h : k = k1 <;> simp [mapGet, mapSet, h, ih]

theorem mapGet_mapSet_ne {V : Type} (m : List (String × V)) (k k9 : String) (v : V)
    (h : k9 ≠ k) : mapGet (mapSet m k v) k9 = mapGet m k9 := by
  induction m with
  | nil => simp [mapGet, mapSet, h]
  | cons p rest ih =>
    obtain ⟨k1, v1⟩ := p
    by_cases h1 : k = k1
    · subst h1
      simp [mapGet, mapSet, h]
    · by_cases h2 : k9 = k1 <;> simp [mapGet, mapSet, h1, h2, ih]

@[simp] theorem mapGet_mapErase_self {V : Type} (m : List (String × V)) (k : String) :
    mapGet (mapErase m k) k = none := by
  induction m with
  | nil => simp [mapErase]
  | cons p rest ih =>
    obtain ⟨k1, v1⟩ := p
    by_cases h : k = k1
    · subst h
      simp [mapErase, ih]
    · simp [mapGet, mapErase, h, ih]

theorem mapGet_mapErase_ne {V : Type} (m : List (String × V)) (k k9 : String)
    (h : k9 ≠ k) : mapGet (mapErase m k) k9 = mapGet m k9 := by
  induction m with
  | nil => simp [mapErase]
  | cons p rest ih =>
    obtain ⟨k1, v1⟩ := p
    by_cases h1 : k = k1
    · subst h1
      simp [mapGet, mapErase, h, ih]
    · by_cases h2 : k9 = k1 <;> simp [mapGet, mapErase, h1, h2, ih]

theorem mapGet_eq_some_mem {V : Type} (m : List (String × V)) (k : String) (v : V)
    (h : mapGet m k = some v) : (k, v) ∈ m := by
  induction m with
  | nil => simp [mapGet] at h
  | cons p rest ih =>
    obtain ⟨k1, v1⟩ := p
    by_cases h1 : k = k1
    · subst h1
      simp [mapGet] at h
      simp [h]
    · simp [mapGet, h1] at h
      exact List.mem_cons_of_mem _ (ih h)

theorem mapGet_eq_none_iff {V : Type} (m : List (String × V)) (k : String) :
    mapGet m k = none ↔ k ∉ mapKeys m := by
  induction m with
  | nil => simp
  | cons p rest ih =>
    obtain ⟨k1, v1⟩ := p
    by_cases h1 : k = k1
    · subst h1
      simp [mapGet]
    · simp [mapGet, h1] at ih ⊢
      exact ih

/-- Folding Go-map assignment over pairs whose keys avoid `k` leaves the
binding of `k` unchanged. -/
theorem mapGet_foldl_mapSet_not_mem {V : Type} (ps : List (String × V))
    (b : List (String × V)) (k : String) (h : k ∉ mapKeys ps) :
    mapGet (ps.foldl (fun a p => mapSet a p.1 p.2) b) k = mapGet b k := by
  induction ps generalizing b with
  | nil => rfl
  | cons p rest ih =>
    obtain ⟨k1, v1⟩ := p
    simp at h
    simp only [List.foldl_cons]
    rw [ih _ h.2, mapGet_mapSet_ne _ _ _ _ h.1]

/-- Folding Go-map assignment over a duplicate-free pair list realises its
own lookup function on the keys it mentions. -/
theorem mapGet_foldl_mapSet_mem {V : Type} (ps : List (String × V))
    (b : List (String × V)) (k : String) (v : V)
    (hnd : (mapKeys ps).Nodup) (h : mapGet ps k = some v) :
    mapGet (ps.foldl (fun a p => mapSet a p.1 p.2) b) k = some v := by
  induction ps generalizing b with
  | nil => simp [mapGet] at h
  | cons p rest ih =>
    obtain ⟨k1, v1⟩ := p
    simp at hnd
    by_cases h1 : k = k1
    · subst h1
      simp [mapGet] at h
      subst h
      simp only [List.foldl_cons]
      rw [mapGet_foldl_mapSet_not_mem _ _ _ hnd.1, mapGet_mapSet_self]
    · simp [mapGet, h1] at h
      simp only [List.foldl_cons]
      exact ih _ hnd.2 h

/-- Folding Go-map assignment over pairs is lookup in the pairs first,
then in the base, when the pair list is duplicate-free. -/
theorem mapGet_foldl_mapSet {V : Type} (ps : List (String × V))
    (b : List (String × V)) (k : String) (hnd : (mapKeys ps).Nodup) :
    mapGet (ps.foldl (fun a p => mapSet a p.1 p.2) b) k =
      (mapGet ps k).elim (mapGet b k) some := by
  cases h : mapGet ps k with
  | none =>
    simp only [Option.elim]
    exact mapGet_foldl_mapSet_not_mem _ _ _ ((mapGet_eq_none_iff _ _).mp h)
  | some v =>
    simp only [Option.elim]
    exact mapGet_foldl_mapSet_mem _ _ _ _ hnd h

theorem mapSet_of_not_mem {V : Type} (m : List (String × V)) (k : String) (v : V)
    (h : k ∉ mapKeys m) : mapSet m k v = m ++ [(k, v)] := by
  induction m with
  | nil => rfl
  | cons p rest ih =>
    obtain ⟨k1, v1⟩ := p
    simp at h
    simp [mapSet, h.1, ih h.2]

/-- Rebuilding a duplicate-free map by folding assignments over a disjoint
base appends it verbatim. -/
theorem foldl_mapSet_disjoint {V : Type} (ps : List (String × V))
    (b : List (String × V)) (hnd : (mapKeys ps).Nodup)
    (hdisj : ∀ k ∈ mapKeys ps, k ∉ mapKeys b) :
    ps.foldl (fun a p => mapSet a p.1 p.2) b = b ++ ps := by
  induction ps generalizing b with
  | nil => simp
  | cons p rest ih =>
    obtain ⟨k1, v1⟩ := p
    simp at hnd hdisj
    simp only [List.foldl_cons]
    have hd2 : ∀ k ∈ mapKeys rest, k ∉ mapKeys (b ++ [(k1, v1)]) := by
      intro k hk
      simp
      exact ⟨hdisj.2 k hk, fun he => absurd (he ▸ hk) hnd.1⟩
    rw [mapSet_of_not_mem _ _ _ hdisj.1, ih _ hnd.2 hd2]
    simp

theorem foldl_mapSet_nil {V : Type} (ps : List (String × V)) (hnd : (mapKeys ps).Nodup) :
    ps.foldl (fun a p => mapSet a p.1 p.2) [] = ps := by
  have := foldl_mapSet_disjoint ps [] hnd (by simp)
  simpa using this

/-! ## Serialization (`encodeJSON` / `decodeJSON`, part_000 lines 206-214)

`encodeJSON` / `decodeJSON` delegate byte-level work to Go's
`encoding/json`; the model works at the level of the token stream that
the stdlib lexer produces from those bytes.  `decodeJSON` reproduces the
stdlib behaviours visible through this repository:

* `Decode` on an input holding no value returns `io.EOF` (modelled `GoErr.eof`);
* a value of the wrong shape is a decode error;
* decoding an object into an existing non-nil map keeps the bindings the
  input does not mention and decodes each mentioned value into a fresh
  zero element, so an inner map from the input replaces an existing inner
  map wholesale;
* `Decode` reads one value and ignores the rest of the stream. -/

/-- Errors of the embedded code, as distinguishable Go error values. -/
inductive GoErr where
  /-- `erratomicFileRetry`, "original file newer than new contents". -/
  | retry
  /-- `errors.New("save called on non-loaded cookie jar")`. -/
  | notLoaded
  /-- `io.EOF`, returned by `Decode` on an input holding no JSON value. -/
  | eof
  /-- any other `encoding/json` decode error. -/
  | decodeFailed
  /-- a filesystem error other than "does not exist", with its message. -/
  | ioErr (msg : String)
deriving DecidableEq

/-- `a.isRetry(err)`: comparison with the `erratomicFileRetry` sentinel. -/
def isRetry (e : GoErr) : Bool := e = GoErr.retry

/-- One token of the serialized document stream. -/
inductive JTok where
  | objStart
  | objEnd
  | key (s : String)
  | entryVal (e : Entry)
deriving DecidableEq

/-- Body tokens of one serialized inner object. -/
def encodeInnerBody : InnerMap → List JTok
  | [] => []
  | (k1, e) :: rest => .key k1 :: .entryVal e :: encodeInnerBody rest

/-- Body tokens of the serialized outer object. -/
def encodeOuterBody : OuterMap → List JTok
  | [] => []
  | (k0, inner) :: rest =>
      .key k0 :: .objStart :: (encodeInnerBody inner ++ (.objEnd :: encodeOuterBody rest))

/-- `encodeJSON(w, m)`: the token stream `json.NewEncoder(w).Encode(m)` writes. -/
def encodeJSON (m : OuterMap) : List JTok :=
  .objStart :: (encodeOuterBody m ++ [.objEnd])

/-- Parse one inner object body into a fresh zero element (Go decodes each
object value into `reflect.Zero` of the element type, not into the
previous inner map). -/
def parseInner : List JTok → InnerMap → Except GoErr (InnerMap × List JTok)
  | .objEnd :: rest, acc => .ok (acc, rest)
  | .key k1 :: .entryVal e :: rest, acc => parseInner rest (mapSet acc k1 e)
  | _, _ => .error .decodeFailed

theorem parseInner_length : ∀ (ts : List JTok) (acc acc1 : InnerMap) (rest : List JTok),
    parseInner ts acc = .ok (acc1, rest) → rest.length < ts.length
  | [], _, _, _, h => by simp [parseInner] at h
  | .objStart :: _, _, _, _, h => by simp [parseInner] at h
  | .entryVal _ :: _, _, _, _, h => by simp [parseInner] at h
  | .objEnd :: r, acc, acc1, rest, h => by
      simp [parseInner] at h
      simp [h.2]
  | [.key _], _, _, _, h => by simp [parseInner] at h
  | .key _ :: .objStart :: _, _, _, _, h => by simp [parseInner] at h
  | .key _ :: .objEnd :: _, _, _, _, h => by simp [parseInner] at h
  | .key _ :: .key _ :: _, _, _, _, h => by simp [parseInner] at h
  | .key k1 :: .entryVal e :: r, acc, acc1, rest, h => by
      simp only [parseInner] at h
      have := parseInner_length r (mapSet acc k1 e) acc1 rest h
      simp only [List.length_cons]
      omega

/-- Parse the outer object body, assigning each decoded inner object into
the accumulated map (Go keeps accumulated keys the input does not mention). -/
def parseOuter : List JTok → OuterMap → Except GoErr (OuterMap × List JTok)
  | .objEnd :: rest, acc => .ok (acc, rest)
  | .key k0 :: .objStart :: rest2, acc =>
      match h : parseInner rest2 [] with
      | .ok (inner, rest3) => parseOuter rest3 (mapSet acc k0 inner)
      | .error e => .error e
  | _, _ => .error .decodeFailed
termination_by ts _ => ts.length
decreasing_by
  simp only [List.length_cons]
  have := parseInner_length _ _ _ _ h
  omega

/-- `decodeJSON(r, m)`: `json.NewDecoder(r).Decode(&m)` reading one value. -/
def decodeJSON (ts : List JTok) (m : OuterMap) : Except GoErr OuterMap :=
  match ts with
  | [] => .error .eof
  | .objStart :: rest =>
      match parseOuter rest m with
      | .ok (m1, _) => .ok m1
      | .error e => .error e
  | _ :: _ => .error .decodeFailed

instance exceptDecEq {E A : Type} [DecidableEq E] [DecidableEq A] : DecidableEq (Except E A) :=
  fun x y =>
    match x, y with
    | .ok a, .ok b =>
      if h : a = b then .isTrue (by rw [h]) else .isFalse (by intro hc; cases hc; exact h rfl)
    | .error a, .error b =>
      if h : a = b then .isTrue (by rw [h]) else .isFalse (by intro hc; cases hc; exact h rfl)
    | .ok _, .error _ => .isFalse (by intro hc; cases hc)
    | .error _, .ok _ => .isFalse (by intro hc; cases hc)

theorem parseInner_encodeInnerBody (inner : InnerMap) (acc : InnerMap) (rest : List JTok) :
    parseInner (encodeInnerBody inner ++ (.objEnd :: rest)) acc =
      .ok (inner.foldl (fun a p => mapSet a p.1 p.2) acc, rest) := by
  induction inner generalizing acc with
  | nil => simp [encodeInnerBody, parseInner]
  | cons p tail ih =>
    obtain ⟨k1, e⟩ := p
    simp [encodeInnerBody, parseInner, ih]

theorem parseOuter_encodeOuterBody (m : OuterMap) (acc : OuterMap) (rest : List JTok)
    (hni : ∀ p ∈ m, (mapKeys p.2).Nodup) :
    parseOuter (encodeOuterBody m ++ (.objEnd :: rest)) acc =
      .ok (m.foldl (fun a p => mapSet a p.1 p.2) acc, rest) := by
  induction m generalizing acc with
  | nil => simp [encodeOuterBody, parseOuter]
  | cons p tail ih =>
    obtain ⟨k0, inner⟩ := p
    have hinner : (mapKeys inner).Nodup := hni _ (List.mem_cons_self _ _)
    have htail := fun q hq => hni q (List.mem_cons_of_mem _ hq)
    simp only [encodeOuterBody, List.cons_append, List.append_assoc]
    have hpi : parseInner
        (encodeInnerBody inner ++ (.objEnd :: (encodeOuterBody tail ++ (.objEnd :: rest)))) [] =
        .ok (inner, encodeOuterBody tail ++ (.objEnd :: rest)) := by
      rw [parseInner_encodeInnerBody, foldl_mapSet_nil inner hinner]
    rw [parseOuter]
    split
    · rename_i inner1 rest3 heq
      rw [hpi] at heq
      simp only [Except.ok.injEq, Prod.mk.injEq] at heq
      obtain ⟨h1, h2⟩ := heq
      subst h1
      subst h2
      rw [ih _ htail]
      simp
    · rename_i e heq
      rw [hpi] at heq
      exact absurd heq (by simp)

/-- Decoding an encoded document merges its pairs into the base map. -/
theorem decodeJSON_encodeJSON (m : OuterMap) (base : OuterMap)
    (hni : ∀ p ∈ m, (mapKeys p.2).Nodup) :
    decodeJSON (encodeJSON m) base =
      .ok (m.foldl (fun a p => mapSet a p.1 p.2) base) := by
  simp only [encodeJSON, decodeJSON]
  rw [parseOuter_encodeOuterBody m base [] hni]

/-- Round-trip into an empty base: the document is rebuilt verbatim. -/
theorem decodeJSON_encodeJSON_nil (m : OuterMap)
    (hnd : (mapKeys m).Nodup) (hni : ∀ p ∈ m, (mapKeys p.2).Nodup) :
    decodeJSON (encodeJSON m) [] = .ok m := by
  rw [decodeJSON_encodeJSON m [] hni, foldl_mapSet_nil m hnd]

/-! ## The merge (`mergeEntries`, part_000 lines 183-192)

```go
func (j *Jar) mergeEntries(m map[string]map[string]entry) {
    for k0 := range m {
        if _, ok := j.entries[k0]; !ok {
            j.entries[k0] = make(map[string]entry)
        }
        for k1 := range m[k0] {
            j.entries[k0][k1] = m[k0][k1]
        }
    }
}
```
The iteration order of `range` is irrelevant to the result; the model
iterates in list order. -/

/-- `j.entries[k0][k1] = v`: update the inner map stored under `k0`.
`mergeEntries` only performs this after ensuring `k0` is present. -/
def setEntry (es : OuterMap) (k0 k1 : String) (v : Entry) : OuterMap :=
  match mapGet es k0 with
  | some inner => mapSet es k0 (mapSet inner k1 v)
  | none => es

/-- The body of the outer `range` loop of `mergeEntries` for one key `k0`
of `m` with its inner map. -/
def mergeOuterStep (es : OuterMap) (p : String × InnerMap) : OuterMap :=
  let es1 := if (mapGet es p.1).isSome then es else mapSet es p.1 []
  p.2.foldl (fun a q => setEntry a p.1 q.1 q.2) es1

/-- `j.mergeEntries(m)` on the Store whose document is `es`. -/
def mergeEntries (es : OuterMap) (m : OuterMap) : OuterMap :=
  m.foldl mergeOuterStep es

theorem mapGet_setEntry_ne (es : OuterMap) (k0 k9 k1 : String) (v : Entry)
    (h : k9 ≠ k0) : mapGet (setEntry es k0 k1 v) k9 = mapGet es k9 := by
  unfold setEntry
  cases mapGet es k0 with
  | none => rfl
  | some inner => exact mapGet_mapSet_ne _ _ _ _ h

theorem mapGet_setEntry_self (es : OuterMap) (k0 k1 : String) (v : Entry) (inner : InnerMap)
    (h : mapGet es k0 = some inner) :
    mapGet (setEntry es k0 k1 v) k0 = some (mapSet inner k1 v) := by
  unfold setEntry
  rw [h, mapGet_mapSet_self]

theorem mapGet_foldl_setEntry_self (qs : List (String × Entry)) (es : OuterMap)
    (k0 : String) (base : InnerMap) (h : mapGet es k0 = some base) :
    mapGet (qs.foldl (fun a q => setEntry a k0 q.1 q.2) es) k0 =
      some (qs.foldl (fun a q => mapSet a q.1 q.2) base) := by
  induction qs generalizing es base with
  | nil => simpa using h
  | cons q tail ih =>
    obtain ⟨k1, v⟩ := q
    simp only [List.foldl_cons]
    exact ih _ _ (mapGet_setEntry_self es k0 k1 v base h)

theorem mapGet_mergeOuterStep_self (es : OuterMap) (k0 : String) (inner : InnerMap) :
    mapGet (mergeOuterStep es (k0, inner)) k0 =
      some (inner.foldl (fun a q => mapSet a q.1 q.2) ((mapGet es k0).getD [])) := by
  unfold mergeOuterStep
  cases h : mapGet es k0 with
  | none =>
    simp only [h, Option.isSome_none, Bool.false_eq_true, if_false, Option.getD]
    exact mapGet_foldl_setEntry_self _ _ _ _ (mapGet_mapSet_self _ _ _)
  | some base =>
    simp only [h, Option.isSome_some, if_true, Option.getD]
    exact mapGet_foldl_setEntry_self _ _ _ _ h

theorem mapGet_mergeOuterStep_ne (es : OuterMap) (k0 k9 : String) (inner : InnerMap)
    (h : k9 ≠ k0) : mapGet (mergeOuterStep es (k0, inner)) k9 = mapGet es k9 := by
  unfold mergeOuterStep
  have hbase : mapGet (if (mapGet es k0).isSome then es else mapSet es k0 []) k9
      = mapGet es k9 := by
    split
    · rfl
    · exact mapGet_mapSet_ne _ _ _ _ h
  rw [← hbase]
  generalize (if (mapGet es k0).isSome then es else mapSet es k0 []) = es1
  induction inner generalizing es1 with
  | nil => rfl
  | cons q tail ih =>
    simp only [List.foldl_cons]
    rw [ih _, mapGet_setEntry_ne _ _ _ _ _ h]

theorem mapGet_foldl_mergeOuterStep_not_mem (m : OuterMap) (es : OuterMap) (k0 : String)
    (h : k0 ∉ mapKeys m) : mapGet (m.foldl mergeOuterStep es) k0 = mapGet es k0 := by
  induction m generalizing es with
  | nil => rfl
  | cons p tail ih =>
    obtain ⟨ka, inner⟩ := p
    simp at h
    simp only [List.foldl_cons]
    rw [ih _ h.2, mapGet_mergeOuterStep_ne _ _ _ _ h.1]

theorem getEntry_mergeEntries_loaded (es m : OuterMap) (k0 k1 : String)
    (minner : InnerMap) (v : Entry)
    (hnd : (mapKeys m).Nodup) (hni : ∀ p ∈ m, (mapKeys p.2).Nodup)
    (h0 : mapGet m k0 = some minner) (h1 : mapGet minner k1 = some v) :
    getEntry (mergeEntries es m) k0 k1 = some v := by
  induction m generalizing es with
  | nil => simp [mapGet] at h0
  | cons p tail ih =>
    obtain ⟨ka, inner⟩ := p
    simp at hnd
    simp only [mergeEntries, List.foldl_cons] at *
    by_cases hk : k0 = ka
    · subst hk
      simp [mapGet] at h0
      subst h0
      unfold getEntry
      rw [mapGet_foldl_mergeOuterStep_not_mem _ _ _ hnd.1,
          mapGet_mergeOuterStep_self es k0 inner]
      exact mapGet_foldl_mapSet_mem _ _ _ _
        (by simpa using hni (k0, inner) (List.mem_cons_self _ _)) h1
    · simp [mapGet, hk] at h0
      exact ih _ hnd.2 (fun q hq => hni q (List.mem_cons_of_mem _ hq)) h0

theorem getEntry_mergeEntries_kept (es m : OuterMap) (k0 k1 : String) (v : Entry)
    (hnd : (mapKeys m).Nodup)
    (hold : getEntry es k0 k1 = some v) (hnew : getEntry m k0 k1 = none) :
    getEntry (mergeEntries es m) k0 k1 = some v := by
  induction m generalizing es with
  | nil => exact hold
  | cons p tail ih =>
    obtain ⟨ka, inner⟩ := p
    simp at hnd
    simp only [mergeEntries, List.foldl_cons] at *
    unfold getEntry at hold hnew
    by_cases hk : k0 = ka
    · subst hk
      simp [mapGet] at hnew
      cases hes : mapGet es k0 with
      | none => rw [hes] at hold; simp at hold
      | some esInner =>
        rw [hes] at hold
        have hold2 : mapGet esInner k1 = some v := hold
        unfold getEntry
        rw [mapGet_foldl_mergeOuterStep_not_mem _ _ _ hnd.1,
            mapGet_mergeOuterStep_self es k0 inner, hes]
        show mapGet (inner.foldl (fun a q => mapSet a q.1 q.2) ((some esInner).getD [])) k1
          = some v
        rw [show (some esInner).getD [] = esInner from rfl,
            mapGet_foldl_mapSet_not_mem _ _ _ ((mapGet_eq_none_iff _ _).mp hnew)]
        exact hold2
    · refine ih _ hnd.2 ?_ ?_
      · unfold getEntry
        rw [mapGet_mergeOuterStep_ne _ _ _ _ hk]
        exact hold
      · unfold getEntry
        rw [mapGet_cons, if_neg hk] at hnew
        exact hnew

/-! ## The atomic file writer (`atomicFile`, persist.go lines 12-79)

The filesystem is a finite map from paths to file data; wall-clock time
is an integer.  Fallible syscalls take explicit fault-injection inputs
(`Option String` is the error message of an injected failure, `none`
meaning the syscall behaves normally on the current filesystem). -/

/-- Content and modification time of one file. -/
structure FileData where
  content : List JTok
  mtime : Int
deriving DecidableEq

/-- The filesystem: a finite map from paths to file data. -/
abbrev FS := List (String × FileData)

/-- `atomicFile`: target path, the `*os.File` temp-file reference
(`none` embeds a nil `file` field), and the creation timestamp. -/
structure AtomicFile where
  filename : String
  file : Option String
  ctime : Int
deriving DecidableEq

/-- Fault injections for the syscalls `commit` performs.  `statErr` is a
`Stat` failure other than not-found; `removeErr` an `os.Remove` failure
other than not-found inside the embedded `cancel`. -/
structure CommitEnv where
  syncErr : Option String
  closeErr : Option String
  statErr : Option String
  renameErr : Option String
  removeErr : Option String
deriving DecidableEq

/-- `a.create(filename)` (persist.go lines 21-29): `ioutil.TempFile` makes a
fresh empty file `tmpName` next to the target and `a.ctime` records the
current time `now`; on failure `a.file` stays nil and `a.ctime` keeps its
zero value. -/
def create (filename tmpName : String) (now : Int) (fail : Bool) (fs : FS) :
    AtomicFile × Option GoErr × FS :=
  match fail with
  | true => (⟨filename, none, 0⟩, some (.ioErr "tempfile"), fs)
  | false => (⟨filename, some tmpName, now⟩, none, mapSet fs tmpName ⟨[], now⟩)

/-- `a.cancel()` (persist.go lines 35-45): close and `os.Remove` the temp
file; a not-found result from `Remove` counts as success. -/
def cancel (a : AtomicFile) (removeErr : Option String) (fs : FS) : Option GoErr × FS :=
  match a.file with
  | none => (none, fs)
  | some tmp =>
    match removeErr with
    | some e => (some (.ioErr e), fs)
    | none =>
      match mapGet fs tmp with
      | some _ => (none, mapErase fs tmp)
      | none => (none, fs)

/-- Result of `os.Stat` on the target. -/
inductive StatRes where
  | ok (mtime : Int)
  | notExist
  | err (msg : String)
deriving DecidableEq

/-- `os.Stat(a.filename)` under the fault injection `statErr`. -/
def statFile (statErr : Option String) (fs : FS) (path : String) : StatRes :=
  match statErr with
  | some e => .err e
  | none =>
    match mapGet fs path with
    | some fd => .ok fd.mtime
    | none => .notExist

/-- `os.Rename(src, dst)`: move the file at `src` onto `dst`. -/
def renameFile (fs : FS) (src dst : String) : FS :=
  match mapGet fs src with
  | some fd => mapSet (mapErase fs src) dst fd
  | none => fs

/-- The stat / conflict-check / rename part of `commit`, after the flush.
`fi != nil && fi.ModTime().After(a.ctime)` is the conflict test: the stat
succeeded and the target mtime is strictly greater than `a.ctime`. -/
def commitCore (a : AtomicFile) (tmp : String) (env : CommitEnv) (fs : FS) :
    Option GoErr × FS :=
  match statFile env.statErr fs a.filename with
  | .err e => (some (.ioErr e), fs)
  | .notExist =>
    match env.renameErr with
    | some e => (some (.ioErr e), fs)
    | none => (none, renameFile fs tmp a.filename)
  | .ok mt =>
    if a.ctime < mt then (some .retry, fs)
    else
      match env.renameErr with
      | some e => (some (.ioErr e), fs)
      | none => (none, renameFile fs tmp a.filename)

/-- `a.commit()` (persist.go lines 55-79).  Note the faithful embedding of
the source slip: the error collected from `Sync`/`Close` is bound and then
never used, because `fi, err := os.Stat(a.filename)` reassigns `err`
unconditionally — `_flushErr` below is dead exactly as in the source.  On
any non-nil error the handle is cancelled (the cancel result is
discarded); on success the second `Close` is a no-op. -/
def commit (a : AtomicFile) (env : CommitEnv) (fs : FS) : Option GoErr × FS :=
  match a.file with
  | none => (none, fs)
  | some tmp =>
    let _flushErr : Option GoErr :=
      match env.syncErr with
      | some e => some (.ioErr e)
      | none => env.closeErr.map (fun e => .ioErr e)
    match commitCore a tmp env fs with
    | (none, fs1) => (none, fs1)
    | (some e, fs1) => (some e, (cancel a env.removeErr fs1).2)

/-! ## The conflict-aware persister (`Jar`, part_000 lines 105-214) -/

/-- The Store: the fields of `Jar` that the persistence code uses
(`j.filename`, `j.entries`; the mutex `j.mu` disappears in this
single-threaded embedding — every locked region is atomic here).
The `Jar` struct itself lives in a repository file not under `src/`;
its two fields are taken from their uses in `src/unnamed/part_000`. -/
structure Jar where
  filename : String
  entries : OuterMap
deriving DecidableEq

/-- `loadJSON(path, m)` (part_000 lines 194-204): open the file (an
injected `openErr` is an `os.Open` failure other than not-found; a
missing path is not an error and leaves `m` untouched), then decode
into `m`. -/
def loadJSON (path : String) (fs : FS) (openErr : Option String) (m : OuterMap) :
    Except GoErr OuterMap :=
  match openErr with
  | some e => .error (.ioErr e)
  | none =>
    match mapGet fs path with
    | none => .ok m
    | some fd => decodeJSON fd.content m

/-- `j.Load(path)` (part_000 lines 155-163): decode into `j.entries`
under the lock; record the path only when `loadJSON` succeeded. -/
def Load (j : Jar) (path : String) (fs : FS) (openErr : Option String) :
    Option GoErr × Jar :=
  match loadJSON path fs openErr j.entries with
  | .error e => (some e, j)
  | .ok m => (none, ⟨path, m⟩)

/-- `j.WriteTo(f)` (part_000 lines 167-172) targeting the handle's temp
file: encode the entries into it.  `fail` injects an encode/write error. -/
def writeToFile (a : AtomicFile) (entries : OuterMap) (fail : Bool) (fs : FS) :
    Option GoErr × FS :=
  match fail with
  | true => (some (.ioErr "write"), fs)
  | false =>
    match a.file with
    | some tmp => (none, mapSet fs tmp ⟨encodeJSON entries, a.ctime⟩)
    | none => (none, fs)

/-- The external world of one iteration of `Save`'s loop: the temp name
`ioutil.TempFile` picks, the wall-clock time at `create`, fault
injections for each syscall, and `interfere` — a concurrent writer that
replaces the target (the only file another process touches) between this
attempt's `create` and its `commit`. -/
structure SaveIterEnv where
  tmpName : String
  now : Int
  createFail : Bool
  writeFail : Bool
  interfere : Option FileData
  commitEnv : CommitEnv
  cancelErr : Option String
  openErr : Option String
deriving DecidableEq

/-- Outcome of one iteration of the `for` loop in `Save`: either the call
returns, or the loop continues with (possibly merged) entries. -/
inductive AttemptOutcome where
  | finished (r : Option GoErr) (fs : FS)
  | again (entries : OuterMap) (fs : FS)
deriving DecidableEq

/-- The filesystem an attempt outcome carries. -/
def attemptFS : AttemptOutcome → FS
  | .finished _ fs => fs
  | .again _ fs => fs

/-- The concurrent writer's move: replace the target, or do nothing. -/
def applyInterfere (i : Option FileData) (filename : String) (fs : FS) : FS :=
  match i with
  | some fd => mapSet fs filename fd
  | none => fs

/-- One iteration of the `for` loop of `j.Save()` (part_000 lines 109-145):
create the temp file, serialize into it, let a concurrent writer race,
commit; on commit failure cancel, then either return the error or — on the
retry sentinel — reload the on-disk document (`continue` on reload error,
skipping the merge) and merge it over the in-memory entries. -/
def saveAttempt (entries : OuterMap) (filename : String) (env : SaveIterEnv) (fs : FS) :
    AttemptOutcome :=
  match create filename env.tmpName env.now env.createFail fs with
  | (_, some e, fs1) => .finished (some e) fs1
  | (af, none, fs1) =>
    match writeToFile af entries env.writeFail fs1 with
    | (some e, fs2) => .finished (some e) (cancel af env.cancelErr fs2).2
    | (none, fs2) =>
      match commit af env.commitEnv (applyInterfere env.interfere filename fs2) with
      | (none, fs4) => .finished none fs4
      | (some e, fs4) =>
        if isRetry e then
          match loadJSON filename (cancel af env.cancelErr fs4).2 env.openErr [] with
          | .error _ => .again entries (cancel af env.cancelErr fs4).2
          | .ok m => .again (mergeEntries entries m) (cancel af env.cancelErr fs4).2
        else .finished (some e) (cancel af env.cancelErr fs4).2

/-- What a call to `Save` returns in the model.  `outOfFuel` is a model
artifact: the unbounded `for` loop ran through every provided iteration
environment without returning — the call has not returned (yet). -/
inductive SaveResult where
  | ok
  | err (e : GoErr)
  | outOfFuel
deriving DecidableEq

/-- The `for` loop of `j.Save()`, one provided environment per iteration. -/
def saveLoop (entries : OuterMap) (filename : String) (fs : FS) :
    List SaveIterEnv → SaveResult × OuterMap × FS
  | [] => (.outOfFuel, entries, fs)
  | env :: rest =>
    match saveAttempt entries filename env fs with
    | .finished none fs1 => (.ok, entries, fs1)
    | .finished (some e) fs1 => (.err e, entries, fs1)
    | .again e1 fs1 => saveLoop e1 filename fs1 rest

/-- `j.Save()` (part_000 lines 105-146): fail on an empty remembered path,
otherwise run the retry loop.  Returns the result, the Store (its entries
reflect any merges performed), and the filesystem. -/
def Save (j : Jar) (fs : FS) (envs : List SaveIterEnv) : SaveResult × Jar × FS :=
  if j.filename = "" then (.err .notLoaded, j, fs)
  else
    match saveLoop j.entries j.filename fs envs with
    | (r, e, fs1) => (r, ⟨j.filename, e⟩, fs1)

/-! ## Behaviour of `cancel`, `commitCore` and `commit` -/

theorem cancel_fs_get (a : AtomicFile) (fs : FS) (tmp : String) (k : String)
    (hf : a.file = some tmp) :
    mapGet ((cancel a none fs).2) k = if k = tmp then none else mapGet fs k := by
  simp only [cancel, hf]
  split
  · rename_i fd hm
    by_cases hk : k = tmp
    · subst hk
      simp
    · simp only [if_neg hk]
      exact mapGet_mapErase_ne _ _ _ hk
  · rename_i hm
    by_cases hk : k = tmp
    · subst hk
      simpa using hm
    · simp [hk]

theorem cancel_preserves_none (a : AtomicFile) (rErr : Option String) (fs : FS) (k : String)
    (h : mapGet fs k = none) : mapGet ((cancel a rErr fs).2) k = none := by
  cases hfile : a.file with
  | none => simpa [cancel, hfile] using h
  | some tmp =>
    cases rErr with
    | some e => simpa [cancel, hfile] using h
    | none =>
      simp only [cancel, hfile]
      split
      · rename_i fd hm
        by_cases hk : k = tmp
        · subst hk
          simp
        · rw [mapGet_mapErase_ne _ _ _ hk]
          exact h
      · exact h

theorem mapGet_renameFile_none (fs : FS) (src dst k : String)
    (hk : k ≠ dst) (h : k = src ∨ mapGet fs k = none) :
    mapGet (renameFile fs src dst) k = none := by
  unfold renameFile
  split
  · rename_i fd hm
    rw [mapGet_mapSet_ne _ _ _ _ hk]
    rcases h with h | h
    · subst h
      simp
    · by_cases hks : k = src
      · subst hks
        simp
      · rw [mapGet_mapErase_ne _ _ _ hks]
        exact h
  · rename_i hm
    rcases h with h | h
    · subst h
      exact hm
    · exact h

theorem commitCore_cases (a : AtomicFile) (tmp : String) (env : CommitEnv) (fs : FS) :
    ((commitCore a tmp env fs).1 = none ∧
      (commitCore a tmp env fs).2 = renameFile fs tmp a.filename) ∨
    (∃ e, (commitCore a tmp env fs).1 = some e ∧ (commitCore a tmp env fs).2 = fs) := by
  unfold commitCore
  split
  · right
    exact ⟨_, rfl, rfl⟩
  · split
    · right
      exact ⟨_, rfl, rfl⟩
    · left
      exact ⟨rfl, rfl⟩
  · split
    · right
      exact ⟨_, rfl, rfl⟩
    · split
      · right
        exact ⟨_, rfl, rfl⟩
      · left
        exact ⟨rfl, rfl⟩

theorem commit_fst (a : AtomicFile) (tmp : String) (env : CommitEnv) (fs : FS)
    (hf : a.file = some tmp) :
    (commit a env fs).1 = (commitCore a tmp env fs).1 := by
  simp only [commit, hf]
  split
  · rename_i fs1 heq
    rw [heq]
  · rename_i e fs1 heq
    rw [heq]

theorem commit_fs_none (a : AtomicFile) (tmp : String) (env : CommitEnv) (fs : FS) (k : String)
    (hf : a.file = some tmp) (hr : env.removeErr = none) (hk : k ≠ a.filename)
    (h : k = tmp ∨ mapGet fs k = none) :
    mapGet ((commit a env fs).2) k = none := by
  simp only [commit, hf]
  split
  · rename_i fs1 heq
    rcases commitCore_cases a tmp env fs with ⟨h1, h2⟩ | ⟨e, h1, h2⟩
    · rw [heq] at h2
      simp only at h2
      show mapGet fs1 k = none
      rw [h2]
      exact mapGet_renameFile_none fs tmp a.filename k hk h
    · rw [heq] at h1
      simp at h1
  · rename_i e fs1 heq
    rcases commitCore_cases a tmp env fs with ⟨h1, h2⟩ | ⟨e1, h1, h2⟩
    · rw [heq] at h1
      simp at h1
    · rw [heq] at h2
      simp only at h2
      show mapGet ((cancel a env.removeErr fs1).2) k = none
      rw [hr, h2, cancel_fs_get a fs tmp k hf]
      rcases h with h | h
      · simp [h]
      · by_cases hkt : k = tmp
        · simp [hkt]
        · simpa [hkt] using h

theorem commitCore_retry_iff (a : AtomicFile) (tmp : String) (env : CommitEnv) (fs : FS)
    (hs : env.statErr = none) :
    (commitCore a tmp env fs).1 = some .retry ↔
      ∃ fd, mapGet fs a.filename = some fd ∧ a.ctime < fd.mtime := by
  cases hm : mapGet fs a.filename with
  | none =>
    have hstat : statFile env.statErr fs a.filename = .notExist := by
      simp [statFile, hs, hm]
    simp only [commitCore, hstat]
    split
    · rename_i e hre
      simp
    · simp
  | some fd =>
    have hstat : statFile env.statErr fs a.filename = .ok fd.mtime := by
      simp [statFile, hs, hm]
    simp only [commitCore, hstat]
    by_cases hlt : a.ctime < fd.mtime
    · rw [if_pos hlt]
      simp [hm, hlt]
    · rw [if_neg hlt]
      split
      · rename_i e hre
        simp [hm, hlt]
      · simp [hm, hlt]

theorem commit_err_fs (a : AtomicFile) (tmp : String) (env : CommitEnv) (fs : FS) (e : GoErr)
    (hf : a.file = some tmp) (he : (commitCore a tmp env fs).1 = some e) :
    (commit a env fs).2 = (cancel a env.removeErr (commitCore a tmp env fs).2).2 := by
  simp only [commit, hf]
  split
  · rename_i fs1 heq
    rw [heq] at he
    simp at he
  · rename_i e1 fs1 heq
    rw [heq]

/-! ## Behaviour of `saveAttempt` and `saveLoop` -/

theorem mapGet_applyInterfere_ne (i : Option FileData) (filename : String) (fs : FS)
    (k : String) (hk : k ≠ filename) :
    mapGet (applyInterfere i filename fs) k = mapGet fs k := by
  cases i with
  | none => rfl
  | some fd => exact mapGet_mapSet_ne _ _ _ _ hk

theorem attemptFS_saveAttempt_none (entries : OuterMap) (filename : String)
    (env : SaveIterEnv) (fs : FS) (k : String)
    (hk : k ≠ filename) (hc : env.cancelErr = none) (hr : env.commitEnv.removeErr = none)
    (h : mapGet fs k = none) :
    mapGet (attemptFS (saveAttempt entries filename env fs)) k = none := by
  cases hcf : env.createFail with
  | true =>
    simp only [saveAttempt, create, hcf]
    simpa [attemptFS] using h
  | false =>
    simp only [saveAttempt, create, hcf]
    cases hwf : env.writeFail with
    | true =>
      simp only [writeToFile, hwf, hc, attemptFS]
      rw [cancel_fs_get _ _ env.tmpName k rfl]
      by_cases hkt : k = env.tmpName
      · simp [hkt]
      · rw [if_neg hkt, mapGet_mapSet_ne _ _ _ _ hkt]
        exact h
    | false =>
      simp only [writeToFile, hwf]
      have hfs3 : k = env.tmpName ∨
          mapGet (applyInterfere env.interfere filename
            (mapSet (mapSet fs env.tmpName ⟨[], env.now⟩) env.tmpName
              ⟨encodeJSON entries, env.now⟩)) k = none := by
        by_cases hkt : k = env.tmpName
        · exact Or.inl hkt
        · right
          rw [mapGet_applyInterfere_ne _ _ _ _ hk, mapGet_mapSet_ne _ _ _ _ hkt,
              mapGet_mapSet_ne _ _ _ _ hkt]
          exact h
      split
      · rename_i fs4 heq
        have h4 := commit_fs_none ⟨filename, some env.tmpName, env.now⟩ env.tmpName
          env.commitEnv _ k rfl hr hk hfs3
        rw [heq] at h4
        simpa [attemptFS] using h4
      · rename_i e fs4 heq
        have h4 := commit_fs_none ⟨filename, some env.tmpName, env.now⟩ env.tmpName
          env.commitEnv _ k rfl hr hk hfs3
        rw [heq] at h4
        simp only at h4
        have h5 : mapGet ((cancel ⟨filename, some env.tmpName, env.now⟩ env.cancelErr fs4).2) k
            = none := cancel_preserves_none _ _ _ _ h4
        split
        · split
          · simpa [attemptFS] using h5
          · simpa [attemptFS] using h5
        · simpa [attemptFS] using h5

theorem saveLoop_fs_none (envs : List SaveIterEnv) (entries : OuterMap) (filename : String)
    (fs : FS) (k : String) (hk : k ≠ filename)
    (henv : ∀ env ∈ envs, env.cancelErr = none ∧ env.commitEnv.removeErr = none)
    (h : mapGet fs k = none) :
    mapGet (saveLoop entries filename fs envs).2.2 k = none := by
  induction envs generalizing entries fs with
  | nil => exact h
  | cons env rest ih =>
    have h1 := attemptFS_saveAttempt_none entries filename env fs k hk
      (henv env (List.mem_cons_self _ _)).1 (henv env (List.mem_cons_self _ _)).2 h
    simp only [saveLoop]
    split
    · rename_i fs1 heq
      rw [heq] at h1
      simpa [attemptFS] using h1
    · rename_i e fs1 heq
      rw [heq] at h1
      simpa [attemptFS] using h1
    · rename_i e1 fs1 heq
      rw [heq] at h1
      simp only [attemptFS] at h1
      exact ih e1 fs1 (fun q hq => henv q (List.mem_cons_of_mem _ hq)) h1

theorem create_snd_some (f t : String) (n : Int) (b : Bool) (fs : FS) (af : AtomicFile)
    (e : GoErr) (fs1 : FS) (h : create f t n b fs = (af, some e, fs1)) :
    e = .ioErr "tempfile" := by
  cases b <;> simp [create] at h
  exact h.2.1.symm

theorem writeToFile_fst_some (a : AtomicFile) (entries : OuterMap) (b : Bool) (fs : FS)
    (e : GoErr) (fs2 : FS) (h : writeToFile a entries b fs = (some e, fs2)) :
    e = .ioErr "write" := by
  cases b with
  | true =>
    simp [writeToFile] at h
    exact h.1.symm
  | false =>
    cases hf : a.file <;> simp [writeToFile, hf] at h

theorem loadJSON_openErr_some (path : String) (fs : FS) (msg : String) (m : OuterMap) :
    loadJSON path fs (some msg) m = .error (.ioErr msg) := rfl

theorem saveAttempt_finished_not_retry (entries : OuterMap) (filename : String)
    (env : SaveIterEnv) (fs : FS) (e : GoErr) (fs1 : FS)
    (h : saveAttempt entries filename env fs = .finished (some e) fs1) :
    e ≠ .retry := by
  unfold saveAttempt at h
  split at h
  · rename_i af e1 fs2 heq
    simp only [AttemptOutcome.finished.injEq, Option.some.injEq] at h
    obtain ⟨he, hfs⟩ := h
    subst he
    rw [create_snd_some _ _ _ _ _ _ _ _ heq]
    simp
  · split at h
    · rename_i e1 fs2 heq
      simp only [AttemptOutcome.finished.injEq, Option.some.injEq] at h
      obtain ⟨he, hfs⟩ := h
      subst he
      rw [writeToFile_fst_some _ _ _ _ _ _ heq]
      simp
    · split at h
      · simp at h
      · split at h
        · split at h <;> simp at h
        · rename_i e1 fs4 heq hcond
          simp only [AttemptOutcome.finished.injEq, Option.some.injEq] at h
          obtain ⟨he, hfs⟩ := h
          subst he
          simpa [isRetry] using hcond

theorem saveLoop_not_retry (envs : List SaveIterEnv) (entries : OuterMap)
    (filename : String) (fs : FS) :
    (saveLoop entries filename fs envs).1 ≠ .err .retry := by
  induction envs generalizing entries fs with
  | nil => simp [saveLoop]
  | cons env rest ih =>
    simp only [saveLoop]
    split
    · rename_i fs1 heq
      simp
    · rename_i e fs1 heq
      have hne := saveAttempt_finished_not_retry _ _ _ _ _ _ heq
      intro hcon
      exact hne (SaveResult.err.inj hcon)
    · rename_i e1 fs1 heq
      exact ih e1 fs1

theorem saveLoop_cons_again (entries : OuterMap) (filename : String) (env : SaveIterEnv)
    (fs : FS) (rest : List SaveIterEnv) (e2 : OuterMap) (fs2 : FS)
    (h : saveAttempt entries filename env fs = .again e2 fs2) :
    saveLoop entries filename fs (env :: rest) = saveLoop e2 filename fs2 rest := by
  simp only [saveLoop]
  split
  · rename_i fs1 heq
    rw [heq] at h
    exact absurd h (by simp)
  · rename_i e fs1 heq
    rw [heq] at h
    exact absurd h (by simp)
  · rename_i e1 fs1 heq
    rw [heq] at h
    simp only [AttemptOutcome.again.injEq] at h
    obtain ⟨he, hfs⟩ := h
    subst he
    subst hfs
    rfl

theorem saveAttempt_again_spec (entries : OuterMap) (filename : String) (env : SaveIterEnv)
    (fs : FS) (e2 : OuterMap) (fs2 : FS)
    (h : saveAttempt entries filename env fs = .again e2 fs2) :
    (env.openErr.isSome = true → e2 = entries) ∧
    (∀ m, loadJSON filename fs2 env.openErr [] = .ok m → e2 = mergeEntries entries m) := by
  unfold saveAttempt at h
  split at h
  · simp at h
  · split at h
    · simp at h
    · split at h
      · simp at h
      · split at h
        · split at h
          · rename_i e1 fs4 heq hcond e3 heqL
            simp only [AttemptOutcome.again.injEq] at h
            obtain ⟨he, hfs⟩ := h
            subst he
            subst hfs
            refine ⟨fun _ => rfl, fun m hm => ?_⟩
            rw [hm] at heqL
            cases heqL
          · rename_i e1 fs4 heq hcond m0 heqL
            simp only [AttemptOutcome.again.injEq] at h
            obtain ⟨he, hfs⟩ := h
            subst he
            subst hfs
            constructor
            · intro hopen
              obtain ⟨msg, hmsg⟩ := Option.isSome_iff_exists.mp hopen
              rw [hmsg, loadJSON_openErr_some] at heqL
              cases heqL
            · intro m hm
              rw [hm] at heqL
              cases heqL
              rfl
        · simp at h

theorem create_ok_shape (f t : String) (n : Int) (b : Bool) (fs : FS) (af : AtomicFile)
    (fs1 : FS) (h : create f t n b fs = (af, none, fs1)) :
    af = ⟨f, some t, n⟩ ∧ fs1 = mapSet fs t ⟨[], n⟩ := by
  cases b <;> simp [create] at h
  exact ⟨h.1.symm, h.2.symm⟩

theorem saveAttempt_again_tmp_gone (entries : OuterMap) (filename : String)
    (env : SaveIterEnv) (fs : FS) (e2 : OuterMap) (fs2 : FS)
    (ht : env.tmpName ≠ filename) (_hc : env.cancelErr = none)
    (hr : env.commitEnv.removeErr = none)
    (h : saveAttempt entries filename env fs = .again e2 fs2) :
    mapGet fs2 env.tmpName = none := by
  unfold saveAttempt at h
  split at h
  · simp at h
  · rename_i af fs1 heqC
    obtain ⟨haf, hfs1⟩ := create_ok_shape _ _ _ _ _ _ _ heqC
    subst haf
    split at h
    · simp at h
    · rename_i fs2x heqW
      split at h
      · simp at h
      · rename_i e1 fs4 heqM
        split at h
        · have h4 : mapGet fs4 env.tmpName = none := by
            have hc4 := commit_fs_none ⟨filename, some env.tmpName, env.now⟩ env.tmpName
              env.commitEnv (applyInterfere env.interfere filename fs2x) env.tmpName rfl hr ht
              (Or.inl rfl)
            rw [heqM] at hc4
            simpa using hc4
          have h5 : mapGet ((cancel ⟨filename, some env.tmpName, env.now⟩ env.cancelErr fs4).2)
              env.tmpName = none := cancel_preserves_none _ _ _ _ h4
          split at h
          · simp only [AttemptOutcome.again.injEq] at h
            obtain ⟨he, hfs⟩ := h
            subst hfs
            exact h5
          · simp only [AttemptOutcome.again.injEq] at h
            obtain ⟨he, hfs⟩ := h
            subst hfs
            exact h5
        · simp at h

/-! ## The claims -/

/-- C1: after a conflict, the merge applied under the Store's lock
(`mergeEntries`) maps every key pair of the freshly loaded on-disk
document `m` to `m`'s value (loaded values win per inner key), and every
key pair present only in the Store's document before the merge keeps its
previous value.  The `Nodup` hypotheses are the Go-map invariant that
keys are unique. -/
theorem mergeEntries_loaded_wins_keeps_rest (es m : OuterMap)
    (hnd : (mapKeys m).Nodup) (hni : ∀ p ∈ m, (mapKeys p.2).Nodup) :
    (∀ k0 k1 minner v, mapGet m k0 = some minner → mapGet minner k1 = some v →
      getEntry (mergeEntries es m) k0 k1 = some v) ∧
    (∀ k0 k1 v, getEntry es k0 k1 = some v → getEntry m k0 k1 = none →
      getEntry (mergeEntries es m) k0 k1 = some v) :=
  ⟨fun k0 k1 minner v h0 h1 => getEntry_mergeEntries_loaded es m k0 k1 minner v hnd hni h0 h1,
   fun k0 k1 v hold hnew => getEntry_mergeEntries_kept es m k0 k1 v hnd hold hnew⟩

/-- Witness for C1 at a concrete merge: the loaded value overwrites
`("a","x")`, the unloaded pair `("a","y")` survives. -/
theorem mergeEntries_loaded_wins_keeps_rest_witness :
    getEntry (mergeEntries [("a", [("x", ⟨"old"⟩), ("y", ⟨"keep"⟩)])]
        [("a", [("x", ⟨"new"⟩)]), ("b", [("z", ⟨"bz"⟩)])]) "a" "x" = some ⟨"new"⟩ ∧
    getEntry (mergeEntries [("a", [("x", ⟨"old"⟩), ("y", ⟨"keep"⟩)])]
        [("a", [("x", ⟨"new"⟩)]), ("b", [("z", ⟨"bz"⟩)])]) "a" "y" = some ⟨"keep"⟩ :=
  ⟨(mergeEntries_loaded_wins_keeps_rest _ _ (by decide) (by decide)).1 "a" "x" _ _ rfl rfl,
   (mergeEntries_loaded_wins_keeps_rest _ _ (by decide) (by decide)).2 "a" "y" _ rfl rfl⟩

/-- C2: for a handle that holds a temp file, with `Stat` behaving normally,
`commit` returns the retry sentinel exactly when the target exists and its
modification time is strictly after the handle's creation timestamp; in
that case the target binding is untouched (no rename) and the temp file is
removed. -/
theorem commit_conflict_spec (a : AtomicFile) (tmp : String) (env : CommitEnv) (fs : FS)
    (hf : a.file = some tmp) (hs : env.statErr = none) (ht : tmp ≠ a.filename)
    (hr : env.removeErr = none) :
    ((commit a env fs).1 = some .retry ↔
      ∃ fd, mapGet fs a.filename = some fd ∧ a.ctime < fd.mtime) ∧
    ((commit a env fs).1 = some .retry →
      mapGet (commit a env fs).2 a.filename = mapGet fs a.filename ∧
      mapGet (commit a env fs).2 tmp = none) := by
  constructor
  · rw [commit_fst a tmp env fs hf]
    exact commitCore_retry_iff a tmp env fs hs
  · intro hretry
    have hcc : (commitCore a tmp env fs).1 = some .retry := by
      rw [← commit_fst a tmp env fs hf]
      exact hretry
    have h2fs : (commitCore a tmp env fs).2 = fs := by
      rcases commitCore_cases a tmp env fs with ⟨h1, _⟩ | ⟨e, h1, h2⟩
      · rw [h1] at hcc
        cases hcc
      · exact h2
    have hcfs : (commit a env fs).2 = (cancel a env.removeErr fs).2 := by
      rw [commit_err_fs a tmp env fs _ hf hcc, h2fs]
    rw [hcfs, hr]
    constructor
    · rw [cancel_fs_get a fs tmp _ hf, if_neg (Ne.symm ht)]
    · rw [cancel_fs_get a fs tmp _ hf, if_pos rfl]

/-- Witness for C2: a target written at time 9 against a handle created at
time 5 conflicts; the target keeps its data and the temp file is removed. -/
theorem commit_conflict_spec_witness :
    ((commit ⟨"t", some "tmp", 5⟩ ⟨none, none, none, none, none⟩
        [("t", ⟨[], 9⟩), ("tmp", ⟨[], 5⟩)]).1 = some .retry ↔
      ∃ fd, mapGet ([("t", ⟨[], 9⟩), ("tmp", ⟨[], 5⟩)] : FS) "t" = some fd ∧
        (5 : Int) < fd.mtime) ∧
    ((commit ⟨"t", some "tmp", 5⟩ ⟨none, none, none, none, none⟩
        [("t", ⟨[], 9⟩), ("tmp", ⟨[], 5⟩)]).1 = some .retry →
      mapGet (commit ⟨"t", some "tmp", 5⟩ ⟨none, none, none, none, none⟩
          [("t", ⟨[], 9⟩), ("tmp", ⟨[], 5⟩)]).2 "t"
        = mapGet ([("t", ⟨[], 9⟩), ("tmp", ⟨[], 5⟩)] : FS) "t" ∧
      mapGet (commit ⟨"t", some "tmp", 5⟩ ⟨none, none, none, none, none⟩
          [("t", ⟨[], 9⟩), ("tmp", ⟨[], 5⟩)]).2 "tmp" = none) :=
  commit_conflict_spec ⟨"t", some "tmp", 5⟩ "tmp" ⟨none, none, none, none, none⟩
    [("t", ⟨[], 9⟩), ("tmp", ⟨[], 5⟩)] rfl rfl (by decide) rfl

/-- C3: the retry sentinel never escapes `Save`; whenever an attempt makes
the loop continue (which only the conflict branch does), the attempt's
temp file has been cleaned up, the loop recurses (retry), and when the
reload succeeded the continued entries are the reloaded document merged
over the in-memory ones. -/
theorem save_conflict_handled_internally :
    (∀ (j : Jar) (fs : FS) (envs : List SaveIterEnv),
        (Save j fs envs).1 ≠ SaveResult.err GoErr.retry) ∧
    (∀ (entries : OuterMap) (filename : String) (env : SaveIterEnv) (fs : FS)
        (e2 : OuterMap) (fs2 : FS) (rest : List SaveIterEnv),
        env.tmpName ≠ filename → env.cancelErr = none → env.commitEnv.removeErr = none →
        saveAttempt entries filename env fs = .again e2 fs2 →
        mapGet fs2 env.tmpName = none ∧
        saveLoop entries filename fs (env :: rest) = saveLoop e2 filename fs2 rest ∧
        ∀ m, loadJSON filename fs2 env.openErr [] = .ok m → e2 = mergeEntries entries m) := by
  constructor
  · intro j fs envs
    unfold Save
    split
    · simp
    · split
      rename_i r e fs1 heq
      have hnr := saveLoop_not_retry envs j.entries j.filename fs
      rw [heq] at hnr
      simpa using hnr
  · intro entries filename env fs e2 fs2 rest ht hc hr h
    exact ⟨saveAttempt_again_tmp_gone entries filename env fs e2 fs2 ht hc hr h,
      saveLoop_cons_again entries filename env fs rest e2 fs2 h,
      (saveAttempt_again_spec entries filename env fs e2 fs2 h).2⟩

/-- Witness for C3 at a concrete conflicted save: the handle created at
time 50 loses to the target written at time 100; the attempt loops with
the on-disk document merged over the in-memory entries, the temp file
gone from the filesystem. -/
theorem save_conflict_handled_internally_witness :
    mapGet ([("j", ⟨encodeJSON [("b", [("y", ⟨"v2"⟩)])], 100⟩)] : FS) "t3" = none ∧
    saveLoop [("a", [("x", ⟨"v1"⟩)])] "j" [("j", ⟨encodeJSON [("b", [("y", ⟨"v2"⟩)])], 100⟩)]
        [⟨"t3", 50, false, false, none, ⟨none, none, none, none, none⟩, none, none⟩]
      = saveLoop (mergeEntries [("a", [("x", ⟨"v1"⟩)])] [("b", [("y", ⟨"v2"⟩)])]) "j"
          [("j", ⟨encodeJSON [("b", [("y", ⟨"v2"⟩)])], 100⟩)] [] ∧
    ∀ m, loadJSON "j" [("j", ⟨encodeJSON [("b", [("y", ⟨"v2"⟩)])], 100⟩)] none [] = .ok m →
      mergeEntries [("a", [("x", ⟨"v1"⟩)])] [("b", [("y", ⟨"v2"⟩)])]
        = mergeEntries [("a", [("x", ⟨"v1"⟩)])] m := by
  have hload : loadJSON "j" [("j", ⟨encodeJSON [("b", [("y", ⟨"v2"⟩)])], 100⟩)] none []
      = .ok [("b", [("y", ⟨"v2"⟩)])] := by
    simp only [loadJSON, mapGet, reduceIte]
    exact decodeJSON_encodeJSON_nil _ (by decide) (by decide)
  have hatt : saveAttempt [("a", [("x", ⟨"v1"⟩)])] "j"
      ⟨"t3", 50, false, false, none, ⟨none, none, none, none, none⟩, none, none⟩
      [("j", ⟨encodeJSON [("b", [("y", ⟨"v2"⟩)])], 100⟩)]
      = .again (mergeEntries [("a", [("x", ⟨"v1"⟩)])] [("b", [("y", ⟨"v2"⟩)])])
          [("j", ⟨encodeJSON [("b", [("y", ⟨"v2"⟩)])], 100⟩)] := by
    rw [show saveAttempt [("a", [("x", ⟨"v1"⟩)])] "j"
        ⟨"t3", 50, false, false, none, ⟨none, none, none, none, none⟩, none, none⟩
        [("j", ⟨encodeJSON [("b", [("y", ⟨"v2"⟩)])], 100⟩)]
        = (match loadJSON "j" [("j", ⟨encodeJSON [("b", [("y", ⟨"v2"⟩)])], 100⟩)] none [] with
          | .error _ => AttemptOutcome.again [("a", [("x", ⟨"v1"⟩)])]
              [("j", ⟨encodeJSON [("b", [("y", ⟨"v2"⟩)])], 100⟩)]
          | .ok m => AttemptOutcome.again (mergeEntries [("a", [("x", ⟨"v1"⟩)])] m)
              [("j", ⟨encodeJSON [("b", [("y", ⟨"v2"⟩)])], 100⟩)]) from rfl, hload]
  exact save_conflict_handled_internally.2 [("a", [("x", ⟨"v1"⟩)])] "j"
    ⟨"t3", 50, false, false, none, ⟨none, none, none, none, none⟩, none, none⟩
    [("j", ⟨encodeJSON [("b", [("y", ⟨"v2"⟩)])], 100⟩)]
    (mergeEntries [("a", [("x", ⟨"v1"⟩)])] [("b", [("y", ⟨"v2"⟩)])])
    [("j", ⟨encodeJSON [("b", [("y", ⟨"v2"⟩)])], 100⟩)] [] (by decide) rfl rfl hatt

/-- C4 (evidence of the code bug): the claim says a flush failure is
returned by `commit` after cancelling the handle.  In the source the error
collected from `Sync`/`Close` is overwritten by `fi, err := os.Stat(...)`
before it is ever read, so with an injected `Sync` failure (and a stale
target, so no conflict) `commit` renames the half-flushed temp file onto
the target and returns success — the flush error is discarded, the handle
is not cancelled. -/
theorem commit_discards_flush_error :
    (CommitEnv.mk (some "sync failure") none none none none).syncErr.isSome = true ∧
    commit ⟨"t", some "t.tmp", 10⟩ ⟨some "sync failure", none, none, none, none⟩
        [("t", ⟨[], 5⟩), ("t.tmp", ⟨[JTok.objStart, JTok.objEnd], 11⟩)]
      = (none, [("t", ⟨[JTok.objStart, JTok.objEnd], 11⟩)]) := by
  constructor
  · rfl
  · decide

/-- C5 counterexample: the claim says that after a conflict whose reload
fails, `Save` retries only the reload until it succeeds, and does not
restart the whole attempt before a successful reload and merge.  On this
run the first attempt conflicts (handle created at 50, target written at
100) and every reload fails (injected open error); the code `continue`s
into a second full attempt (fresh handle at 200, re-serialize, re-commit),
which succeeds and overwrites the target with the unmerged in-memory
entries — no reload ever succeeded, no merge ever happened, and the
on-disk document that caused the conflict is lost. -/
theorem save_reload_failure_cex :
    Save ⟨"j", [("a", [("x", ⟨"v1"⟩)])]⟩
        [("j", ⟨encodeJSON [("b", [("y", ⟨"v2"⟩)])], 100⟩)]
        [⟨"t1", 50, false, false, none, ⟨none, none, none, none, none⟩, none,
            some "transient"⟩,
          ⟨"t2", 200, false, false, none, ⟨none, none, none, none, none⟩, none, none⟩]
      = (.ok, ⟨"j", [("a", [("x", ⟨"v1"⟩)])]⟩,
          [("j", ⟨encodeJSON [("a", [("x", ⟨"v1"⟩)])], 200⟩)]) ∧
    mergeEntries [("a", [("x", ⟨"v1"⟩)])] [("b", [("y", ⟨"v2"⟩)])]
      ≠ [("a", [("x", ⟨"v1"⟩)])] := by
  constructor
  · rfl
  · decide

/-- C5 as amended: when the reload after a conflict fails, the attempt
loops again with UNCHANGED entries — the merge is skipped — and the loop
then runs the next full attempt (create, serialize, commit) from the top;
the reload is not retried by itself. -/
theorem saveAttempt_reload_failure_restarts (entries : OuterMap) (filename : String)
    (env : SaveIterEnv) (fs : FS) (e2 : OuterMap) (fs2 : FS) (rest : List SaveIterEnv)
    (hopen : env.openErr.isSome = true)
    (h : saveAttempt entries filename env fs = .again e2 fs2) :
    e2 = entries ∧
    saveLoop entries filename fs (env :: rest) = saveLoop entries filename fs2 rest := by
  have h1 := (saveAttempt_again_spec entries filename env fs e2 fs2 h).1 hopen
  refine ⟨h1, ?_⟩
  rw [saveLoop_cons_again entries filename env fs rest e2 fs2 h, h1]

/-- Witness for the amended C5: the conflicted attempt with a failing
reload loops again with the same entries and the same (cleaned)
filesystem. -/
theorem saveAttempt_reload_failure_restarts_witness :
    (([("a", [("x", ⟨"v1"⟩)])] : OuterMap) = [("a", [("x", ⟨"v1"⟩)])]) ∧
    saveLoop [("a", [("x", ⟨"v1"⟩)])] "j"
        [("j", ⟨encodeJSON [("b", [("y", ⟨"v2"⟩)])], 100⟩)]
        [⟨"t1", 50, false, false, none, ⟨none, none, none, none, none⟩, none,
            some "transient"⟩]
      = saveLoop [("a", [("x", ⟨"v1"⟩)])] "j"
          [("j", ⟨encodeJSON [("b", [("y", ⟨"v2"⟩)])], 100⟩)] [] :=
  saveAttempt_reload_failure_restarts [("a", [("x", ⟨"v1"⟩)])] "j"
    ⟨"t1", 50, false, false, none, ⟨none, none, none, none, none⟩, none, some "transient"⟩
    [("j", ⟨encodeJSON [("b", [("y", ⟨"v2"⟩)])], 100⟩)]
    [("a", [("x", ⟨"v1"⟩)])] [("j", ⟨encodeJSON [("b", [("y", ⟨"v2"⟩)])], 100⟩)] []
    rfl (by rfl)

/-- C6 counterexample: the claim says loading a missing file and loading
an existing empty file are observationally equal successes.  `Decode` on
an empty input returns `io.EOF`, which `loadJSON` propagates, so `Load`
on a zero-length file FAILS (and does not record the path), while `Load`
on a missing path succeeds. -/
theorem load_empty_file_differs_cex :
    Load ⟨"", []⟩ "p" [("p", ⟨[], 5⟩)] none = (some .eof, ⟨"", []⟩) ∧
    Load ⟨"", []⟩ "p" [] none = (none, ⟨"p", []⟩) := by
  constructor
  · rfl
  · rfl

/-- C6 as amended: on an empty Store, `Load` of a missing path succeeds
with an empty document and records the path; `Load` of an existing
zero-length file returns the EOF decode error and leaves the Store
unchanged. -/
theorem load_missing_vs_empty_file (j : Jar) (p : String) (fs : FS)
    (hj : j.entries = []) :
    (mapGet fs p = none → Load j p fs none = (none, ⟨p, []⟩)) ∧
    (∀ fd, mapGet fs p = some fd → fd.content = [] → Load j p fs none = (some .eof, j)) := by
  constructor
  · intro hm
    simp [Load, loadJSON, hm, hj]
  · intro fd hm hc
    simp [Load, loadJSON, hm, hc, decodeJSON]

/-- Witness for the amended C6 at concrete filesystems. -/
theorem load_missing_vs_empty_file_witness :
    Load ⟨"seed", []⟩ "p" [] none = (none, ⟨"p", []⟩) ∧
    Load ⟨"seed", []⟩ "p" [("p", ⟨[], 7⟩)] none = (some .eof, ⟨"seed", []⟩) :=
  ⟨(load_missing_vs_empty_file ⟨"seed", []⟩ "p" [] rfl).1 rfl,
   (load_missing_vs_empty_file ⟨"seed", []⟩ "p" [("p", ⟨[], 7⟩)] rfl).2 ⟨[], 7⟩ rfl rfl⟩

/-- C7 counterexample: the claim says a successful `Load` replaces the
document, no key surviving from before the call.  `Decode` into an
existing non-nil map keeps the bindings the input does not mention, so
outer key `"a"` of the pre-load document survives a `Load` of a file
holding only `"b"`. -/
theorem load_does_not_replace_cex :
    (Load ⟨"", [("a", [("x", ⟨"v1"⟩)])]⟩ "p"
        [("p", ⟨encodeJSON [("b", [("y", ⟨"v2"⟩)])], 1⟩)] none).1 = none ∧
    mapGet (Load ⟨"", [("a", [("x", ⟨"v1"⟩)])]⟩ "p"
        [("p", ⟨encodeJSON [("b", [("y", ⟨"v2"⟩)])], 1⟩)] none).2.entries "a"
      = some [("x", ⟨"v1"⟩)] ∧
    mapGet ([("b", [("y", ⟨"v2"⟩)])] : OuterMap) "a" = none := by
  have hdec : decodeJSON (encodeJSON [("b", [("y", ⟨"v2"⟩)])]) [("a", [("x", ⟨"v1"⟩)])]
      = .ok [("a", [("x", ⟨"v1"⟩)]), ("b", [("y", ⟨"v2"⟩)])] := by
    rw [decodeJSON_encodeJSON _ _ (by decide)]
    rfl
  have h : Load ⟨"", [("a", [("x", ⟨"v1"⟩)])]⟩ "p"
      [("p", ⟨encodeJSON [("b", [("y", ⟨"v2"⟩)])], 1⟩)] none
      = (none, ⟨"p", [("a", [("x", ⟨"v1"⟩)]), ("b", [("y", ⟨"v2"⟩)])]⟩) := by
    simp only [Load, loadJSON, mapGet, reduceIte, hdec]
  refine ⟨by rw [h], by rw [h]; rfl, rfl⟩

/-- C7 as amended: a successful `Load` of a decodable file overlays the
decoded document onto the pre-load document at outer-key granularity —
every outer key of the file maps to exactly the file's inner map, outer
keys only in the pre-load document survive; on a Store whose document was
empty this is exactly the decoded document. -/
theorem Load_overlays_decoded_document (j : Jar) (p : String) (fs : FS) (fd : FileData)
    (D : OuterMap) (hm : mapGet fs p = some fd) (hc : fd.content = encodeJSON D)
    (hnd : (mapKeys D).Nodup) (hni : ∀ q ∈ D, (mapKeys q.2).Nodup) :
    (Load j p fs none).1 = none ∧ (Load j p fs none).2.filename = p ∧
    ∀ k0, mapGet (Load j p fs none).2.entries k0 =
      (mapGet D k0).elim (mapGet j.entries k0) some := by
  have hload : loadJSON p fs none j.entries
      = .ok (D.foldl (fun a q => mapSet a q.1 q.2) j.entries) := by
    simp only [loadJSON, hm, hc]
    exact decodeJSON_encodeJSON D j.entries hni
  simp only [Load, hload]
  refine ⟨trivial, trivial, ?_⟩
  intro k0
  exact mapGet_foldl_mapSet D j.entries k0 hnd

/-- Witness for the amended C7: the decoded key `"b"` carries the file's
inner map, the pre-load key `"a"` survives. -/
theorem Load_overlays_decoded_document_witness :
    (Load ⟨"", [("a", [("x", ⟨"v1"⟩)])]⟩ "p"
        [("p", ⟨encodeJSON [("b", [("y", ⟨"v2"⟩)])], 1⟩)] none).1 = none ∧
    (Load ⟨"", [("a", [("x", ⟨"v1"⟩)])]⟩ "p"
        [("p", ⟨encodeJSON [("b", [("y", ⟨"v2"⟩)])], 1⟩)] none).2.filename = "p" ∧
    ∀ k0, mapGet (Load ⟨"", [("a", [("x", ⟨"v1"⟩)])]⟩ "p"
        [("p", ⟨encodeJSON [("b", [("y", ⟨"v2"⟩)])], 1⟩)] none).2.entries k0 =
      (mapGet ([("b", [("y", ⟨"v2"⟩)])] : OuterMap) k0).elim
        (mapGet ([("a", [("x", ⟨"v1"⟩)])] : OuterMap) k0) some :=
  Load_overlays_decoded_document ⟨"", [("a", [("x", ⟨"v1"⟩)])]⟩ "p"
    [("p", ⟨encodeJSON [("b", [("y", ⟨"v2"⟩)])], 1⟩)] ⟨encodeJSON [("b", [("y", ⟨"v2"⟩)])], 1⟩
    [("b", [("y", ⟨"v2"⟩)])] rfl rfl (by decide) (by decide)

/-- C8: saving any document (unique keys, the Go-map invariant) with a
clean, uninterfered `Save` and loading it back into an empty Store
reproduces the document exactly — in particular lookup-equal at every key
pair — with no error; this includes the empty document. -/
theorem save_then_load_roundtrip (D : OuterMap)
    (hnd : (mapKeys D).Nodup) (hni : ∀ p ∈ D, (mapKeys p.2).Nodup) :
    Save ⟨"jar.json", D⟩ []
        [⟨"jar.json.tmp", 10, false, false, none, ⟨none, none, none, none, none⟩,
          none, none⟩]
      = (.ok, ⟨"jar.json", D⟩, [("jar.json", ⟨encodeJSON D, 10⟩)]) ∧
    Load ⟨"", []⟩ "jar.json" [("jar.json", ⟨encodeJSON D, 10⟩)] none
      = (none, ⟨"jar.json", D⟩) ∧
    ∀ k0 k1,
      getEntry (Load ⟨"", []⟩ "jar.json" [("jar.json", ⟨encodeJSON D, 10⟩)] none).2.entries
          k0 k1
        = getEntry D k0 k1 := by
  have hload : Load ⟨"", []⟩ "jar.json" [("jar.json", ⟨encodeJSON D, 10⟩)] none
      = (none, ⟨"jar.json", D⟩) := by
    have hl : loadJSON "jar.json" [("jar.json", ⟨encodeJSON D, 10⟩)] none [] = .ok D := by
      simp only [loadJSON, mapGet, reduceIte]
      exact decodeJSON_encodeJSON_nil D hnd hni
    simp only [Load, hl]
  exact ⟨rfl, hload, fun k0 k1 => by rw [hload]⟩

/-- Witness for C8 at a two-domain document. -/
theorem save_then_load_roundtrip_witness :
    Save ⟨"jar.json", [("a", [("x", ⟨"u"⟩), ("y", ⟨"w"⟩)]), ("b", [("z", ⟨"q"⟩)])]⟩ []
        [⟨"jar.json.tmp", 10, false, false, none, ⟨none, none, none, none, none⟩,
          none, none⟩]
      = (.ok, ⟨"jar.json", [("a", [("x", ⟨"u"⟩), ("y", ⟨"w"⟩)]), ("b", [("z", ⟨"q"⟩)])]⟩,
          [("jar.json",
            ⟨encodeJSON [("a", [("x", ⟨"u"⟩), ("y", ⟨"w"⟩)]), ("b", [("z", ⟨"q"⟩)])], 10⟩)]) ∧
    Load ⟨"", []⟩ "jar.json"
        [("jar.json",
          ⟨encodeJSON [("a", [("x", ⟨"u"⟩), ("y", ⟨"w"⟩)]), ("b", [("z", ⟨"q"⟩)])], 10⟩)] none
      = (none, ⟨"jar.json", [("a", [("x", ⟨"u"⟩), ("y", ⟨"w"⟩)]), ("b", [("z", ⟨"q"⟩)])]⟩) ∧
    ∀ k0 k1,
      getEntry (Load ⟨"", []⟩ "jar.json"
          [("jar.json",
            ⟨encodeJSON [("a", [("x", ⟨"u"⟩), ("y", ⟨"w"⟩)]), ("b", [("z", ⟨"q"⟩)])], 10⟩)]
          none).2.entries k0 k1
        = getEntry [("a", [("x", ⟨"u"⟩), ("y", ⟨"w"⟩)]), ("b", [("z", ⟨"q"⟩)])] k0 k1 :=
  save_then_load_roundtrip [("a", [("x", ⟨"u"⟩), ("y", ⟨"w"⟩)]), ("b", [("z", ⟨"q"⟩)])]
    (by decide) (by decide)

/-- C9: no temp file created by any attempt of a `Save` call remains on
the filesystem it returns (each is renamed onto the target or deleted),
for any number of iterations, conflicts included — provided the temp
names are fresh (`TempFile` guarantees a fresh name distinct from the
target) and no `Remove` fault is injected. -/
theorem save_no_temp_leak (j : Jar) (fs : FS) (envs : List SaveIterEnv)
    (henv : ∀ env ∈ envs, env.tmpName ≠ j.filename ∧ mapGet fs env.tmpName = none ∧
      env.cancelErr = none ∧ env.commitEnv.removeErr = none) :
    ∀ env ∈ envs, mapGet (Save j fs envs).2.2 env.tmpName = none := by
  intro env hmem
  obtain ⟨ht, h0, hc, hr⟩ := henv env hmem
  unfold Save
  split
  · exact h0
  · split
    rename_i r e fs1 heq
    have hinv := saveLoop_fs_none envs j.entries j.filename fs env.tmpName ht
      (fun q hq => ⟨(henv q hq).2.2.1, (henv q hq).2.2.2⟩) h0
    rw [heq] at hinv
    simpa using hinv

/-- Witness for C9 on a two-iteration run whose first attempt conflicts
and merges: neither temp file survives. -/
theorem save_no_temp_leak_witness :
    mapGet (Save ⟨"j", [("a", [("x", ⟨"v1"⟩)])]⟩
        [("j", ⟨encodeJSON [("b", [("y", ⟨"v2"⟩)])], 100⟩)]
        [⟨"t1", 50, false, false, none, ⟨none, none, none, none, none⟩, none,
            some "transient"⟩,
          ⟨"t2", 200, false, false, none, ⟨none, none, none, none, none⟩, none,
            none⟩]).2.2 "t1" = none ∧
    mapGet (Save ⟨"j", [("a", [("x", ⟨"v1"⟩)])]⟩
        [("j", ⟨encodeJSON [("b", [("y", ⟨"v2"⟩)])], 100⟩)]
        [⟨"t1", 50, false, false, none, ⟨none, none, none, none, none⟩, none,
            some "transient"⟩,
          ⟨"t2", 200, false, false, none, ⟨none, none, none, none, none⟩, none,
            none⟩]).2.2 "t2" = none :=
  ⟨save_no_temp_leak ⟨"j", [("a", [("x", ⟨"v1"⟩)])]⟩
      [("j", ⟨encodeJSON [("b", [("y", ⟨"v2"⟩)])], 100⟩)]
      [⟨"t1", 50, false, false, none, ⟨none, none, none, none, none⟩, none,
          some "transient"⟩,
        ⟨"t2", 200, false, false, none, ⟨none, none, none, none, none⟩, none, none⟩]
      (by decide)
      ⟨"t1", 50, false, false, none, ⟨none, none, none, none, none⟩, none,
        some "transient"⟩ (by decide),
   save_no_temp_leak ⟨"j", [("a", [("x", ⟨"v1"⟩)])]⟩
      [("j", ⟨encodeJSON [("b", [("y", ⟨"v2"⟩)])], 100⟩)]
      [⟨"t1", 50, false, false, none, ⟨none, none, none, none, none⟩, none,
          some "transient"⟩,
        ⟨"t2", 200, false, false, none, ⟨none, none, none, none, none⟩, none, none⟩]
      (by decide)
      ⟨"t2", 200, false, false, none, ⟨none, none, none, none, none⟩, none, none⟩
      (by decide)⟩

/-- C10: `commit` and `cancel` on a handle whose temp-file reference is
nil both return success immediately and leave every file — target and
directory — exactly as it was. -/
theorem commit_cancel_nil_noop (a : AtomicFile) (env : CommitEnv) (rErr : Option String)
    (fs : FS) (h : a.file = none) :
    commit a env fs = (none, fs) ∧ cancel a rErr fs = (none, fs) := by
  constructor
  · simp [commit, h]
  · simp [cancel, h]

/-- Witness for C10: a handle whose `create` failed (nil file reference)
over a filesystem that still holds the target. -/
theorem commit_cancel_nil_noop_witness :
    commit ⟨"t", none, 3⟩ ⟨none, none, some "stat blew up", none, none⟩
        [("t", ⟨[], 1⟩)] = (none, [("t", ⟨[], 1⟩)]) ∧
    cancel ⟨"t", none, 3⟩ (some "remove fails") [("t", ⟨[], 1⟩)]
      = (none, [("t", ⟨[], 1⟩)]) :=
  commit_cancel_nil_noop ⟨"t", none, 3⟩ ⟨none, none, some "stat blew up", none, none⟩
    (some "remove fails") [("t", ⟨[], 1⟩)] rfl

end CookieJar
